import Mathlib

/-!
# Verification of the `neli` netlink codec core

Shallow embedding of the three source files of the repository
(`src/consts.rs`, `src/genl.rs`, `src/err.rs`) and proofs of the frozen
claims about them.

Modelling conventions:

* Bytes are `Nat`s below 256; a write buffer is a `List Nat` that serializers
  append to (the Rust code writes through a growable `StreamWriteBuffer`
  cursor, which cannot fail, so serializers are total); a read buffer is the
  list of not-yet-consumed bytes, and deserializers return
  `Except DeError (value × rest)` (the Rust `StreamReadBuffer` fails exactly
  when the remaining bytes are fewer than the fixed width requested).
* Fixed-width integers are `Nat` with explicit reduction modulo `2 ^ width`
  where the machine width matters; the host is little-endian 64-bit (the
  wire format is native-endian per the kernel ABI).
* The `impl_var!`/`impl_var_base!` code-generation recipe of `src/consts.rs`
  produces, for a family of named constants, an enum with one constructor per
  named variant plus `UnrecognizedVariant`, and `From` conversions that match
  the integer against the variant values in declaration order.  We embed the
  generated code schematically: a `Family` records the backing width in bytes
  and the list of variant values in declaration order, and an enum value is
  either `known i` (the variant at declaration index `i`) or
  `unrecognizedVariant v` (the fallback carrying the raw integer `v`).
-/

namespace Neli

/-- Deserialization error (`err.rs`: `pub struct DeError(String)`). -/
structure DeError where
  msg : String
deriving DecidableEq, Repr

/-- Serialization error (`err.rs`: `pub struct SerError(String)`). -/
structure SerError where
  msg : String
deriving DecidableEq, Repr

/-! ## Little-endian fixed-width integer codec

The primitive `Nl` impls for `u8`/`u16`/... live in the crate root, which is
not among the source files; they write the integer's bytes in native
(little-endian) order and read them back, failing if the buffer is exhausted
before the full fixed width is read. -/

/-- The `w` little-endian bytes of `n` (low byte first). -/
def bytesLE : Nat → Nat → List Nat
  | 0, _ => []
  | w + 1, n => n % 256 :: bytesLE w (n / 256)

/-- Recombine a little-endian byte list into an integer. -/
def natFromBytesLE (bs : List Nat) : Nat :=
  bs.foldr (fun b acc => b + 256 * acc) 0

/-- Modelled from the spec: the missing fixed-width-integer `Nl` impls
(crate root, §4.2).  Serialize a `w`-byte unsigned integer by appending its
native-endian bytes to the write buffer. -/
def serUInt (w n : Nat) (buf : List Nat) : List Nat :=
  buf ++ bytesLE w n

/-- Modelled from the spec: the missing fixed-width-integer `Nl` impls
(crate root, §4.2).  Deserialize a `w`-byte unsigned integer, failing with a
decode error when fewer than `w` bytes remain. -/
def desUInt (w : Nat) (buf : List Nat) : Except DeError (Nat × List Nat) :=
  if w ≤ buf.length then
    .ok (natFromBytesLE (buf.take w), buf.drop w)
  else
    .error ⟨"buffer exhausted"⟩

/-! ## The constant/enumeration system (`src/consts.rs`) -/

/-- An enumeration family as generated by `impl_var!`: the backing integer
width in bytes and the backing values of the named variants in declaration
order (the default variant first, then the others). -/
structure Family where
  width : Nat
  vals : List Nat
deriving DecidableEq, Repr

/-- A value of an enumeration family: a named variant, identified by its
declaration index, or the `UnrecognizedVariant` fallback carrying the raw
backing integer. -/
inductive EnumVal where
  | known : Nat → EnumVal
  | unrecognizedVariant : Nat → EnumVal
deriving DecidableEq, Repr

/-- Index of the first variant value equal to `v`, if any: the generated
`From<$ty>` impl matches its `i if i == $val` arms in declaration order. -/
def findVariant : List Nat → Nat → Option Nat
  | [], _ => none
  | x :: xs, v => if x = v then some 0 else (findVariant xs v).map (· + 1)

/-- `From<$ty> for $name`: the first variant whose value equals `v`, else
`UnrecognizedVariant(v)`. -/
def fromInt (F : Family) (v : Nat) : EnumVal :=
  match findVariant F.vals v with
  | some i => .known i
  | none => .unrecognizedVariant v

/-- `From<$name> for $ty`: a named variant maps to its declared value,
`UnrecognizedVariant(i)` maps to `i`. -/
def toInt (F : Family) : EnumVal → Nat
  | .known i => F.vals.getD i 0
  | .unrecognizedVariant n => n

/-- `Nl::serialize` for an enumeration: convert to the backing integer, then
serialize that integer. -/
def enumSerialize (F : Family) (e : EnumVal) (buf : List Nat) : List Nat :=
  serUInt F.width (toInt F e) buf

/-- `Nl::deserialize` for an enumeration: deserialize the backing integer,
then convert (total, never failing on an unrecognized value). -/
def enumDeserialize (F : Family) (buf : List Nat) :
    Except DeError (EnumVal × List Nat) :=
  match desUInt F.width buf with
  | .ok (v, rest) => .ok (fromInt F v, rest)
  | .error e => .error e

/-! ## The alignment utility (`src/consts.rs`)

`pub fn alignto(len: usize) -> usize { (len + libc::NLA_ALIGNTO as usize - 1)
& !(libc::NLA_ALIGNTO as usize - 1) }` with `NLA_ALIGNTO = 4`.  On a 64-bit
host, `!(4 - 1) : usize` is `2 ^ 64 - 4`, and the addition `len + 3` wraps
modulo `2 ^ 64` (release-build two's-complement wrapping; a debug build
aborts on the same inputs instead). -/

/-- `alignto` on a 64-bit host, with usize wrapping made explicit. -/
def alignto (len : Nat) : Nat :=
  ((len + 4 - 1) % 2 ^ 64) &&& (2 ^ 64 - 4)

/-! ## Concrete enumeration families (`src/consts.rs`)

Each `Family` lists the backing width in bytes and the variant backing values
in declaration order, taken from the Linux kernel headers via `libc`. -/

/-- `Arphrd` (interface hardware types, backed by `libc::c_ushort`): Netrom,
Ether, Eether, AX25, Pronet, Chaos, Ieee802, Arcnet, Appletlk, Dlci, Atm,
Metricom, Ieee1394, Eui64, Infiniband, Void, None.  Note `Atm` is declared as
`libc::ARPHRD_APPLETLK` (8) in the source, duplicating `Appletlk`'s value,
instead of `ARPHRD_ATM` (19). -/
def arphrdFam : Family :=
  ⟨2, [0, 1, 2, 3, 4, 5, 6, 7, 8, 15, 8, 23, 24, 27, 32, 0xFFFF, 0xFFFE]⟩

/-- `Arphrd::Appletlk` (declaration index 8). -/
def arphrdAppletlk : EnumVal := .known 8

/-- `Arphrd::Atm` (declaration index 10). -/
def arphrdAtm : EnumVal := .known 10

/-- `NlmF` (netlink message flags, backed by `u16`): Request 1, Multi 2,
Ack 4, Echo 8, DumpIntr 16, DumpFiltered 32, Root 0x100, Match 0x200,
Atomic 0x400, Dump 0x300, Replace 0x100, Excl 0x200, Create 0x400,
Append 0x800. -/
def nlmFFam : Family :=
  ⟨2, [1, 2, 4, 8, 16, 32, 0x100, 0x200, 0x400, 0x300, 0x100, 0x200, 0x400,
       0x800]⟩

/-- `CtrlCmd` (generic netlink controller commands, backed by `u8`): Unspec 0,
Newfamily 1, Delfamily 2, Getfamily 3, Newops 4, Delops 5, Getops 6,
NewmcastGrp 7, DelmcastGrp 8, GetmcastGrp 9. -/
def ctrlCmdFam : Family := ⟨1, [0, 1, 2, 3, 4, 5, 6, 7, 8, 9]⟩

/-- `CtrlCmd::Getops` (declaration index 6, backing value 6). -/
def ctrlCmdGetops : EnumVal := .known 6

/-- `CtrlAttr` (generic netlink controller attribute types, backed by `u16`):
Unspec 0, FamilyId 1, FamilyName 2, Version 3, Hdrsize 4, Maxattr 5, Ops 6,
McastGroups 7. -/
def ctrlAttrFam : Family := ⟨2, [0, 1, 2, 3, 4, 5, 6, 7]⟩

/-- `CtrlAttr::FamilyId` (declaration index 1, backing value 1). -/
def ctrlAttrFamilyId : EnumVal := .known 1

/-! ## Byte-sequence codec

The `Nl` impl for `Vec<u8>` lives in the crate root, which is not among the
source files; its behaviour is fixed by the serialization tests in
`src/genl.rs` (the expected byte vectors contain the blob's bytes verbatim,
with nothing before them, and `test_deserialize` round-trips a buffer whose
tail is the blob). -/

/-- Modelled from the spec: the missing `impl Nl for Vec<u8>` (crate root).
Serializing a byte sequence writes its bytes to the stream; the byte vectors
expected by the `src/genl.rs` tests show no length prefix on the wire. -/
def serVecU8 (bs buf : List Nat) : List Nat :=
  buf ++ bs

/-- Modelled from the spec: the missing `impl Nl for Vec<u8>` (crate root).
Deserializing a byte sequence consumes the remainder of the read buffer
(`test_deserialize` in `src/genl.rs` recovers the attribute blob from the
tail of the input with no stored length). -/
def desVecU8 (buf : List Nat) : Except DeError (List Nat × List Nat) :=
  .ok (buf, [])

/-! ## The attribute (TLV) record (`nlattr.rs`, not among the source files) -/

/-- Modelled from the spec: `Nlattr` (`nlattr.rs` is not among the source
files, §3/§4.4).  A TLV record: `nla_len` (16-bit, header plus unpadded
payload), `nla_type` (an enumeration value of a capability-marked family,
here recorded with its family), and the raw payload bytes. -/
structure Nlattr where
  fam : Family
  nlaLen : Nat
  nlaType : EnumVal
  payload : List Nat
deriving DecidableEq, Repr

/-- Modelled from the spec: `Nlattr::new_binary_payload` (`nlattr.rs`, §4.4)
builds an attribute from a raw byte blob, computing `nla_len` as header size
(4) plus the unpadded payload size. -/
def Nlattr.newBinaryPayload (fam : Family) (t : EnumVal) (p : List Nat) :
    Nlattr :=
  ⟨fam, 4 + p.length, t, p⟩

/-- Modelled from the spec: `Nlattr`'s `Nl::serialize` (`nlattr.rs`, §4.4):
`length`, `type`, payload bytes, then enough zero bytes to reach the next
alignment boundary; the padding is excluded from `length`. -/
def nlattrSerialize (a : Nlattr) (buf : List Nat) : List Nat :=
  serVecU8 a.payload
      (enumSerialize a.fam a.nlaType (serUInt 2 a.nlaLen buf))
    ++ List.replicate (alignto a.nlaLen - a.nlaLen) 0

/-- Modelled from the spec: `AttrHandle` (`nlattr.rs`, §4.4) traverses either
a flat binary region or an already-typed attribute list; `src/genl.rs`
constructs the `Bin` form over the stored blob. -/
inductive AttrHandle where
  | Bin : List Nat → AttrHandle
  | Parsed : List Nlattr → AttrHandle
deriving DecidableEq, Repr

/-! ## The generic netlink header (`src/genl.rs`) -/

/-- `Genlmsghdr`: command, version, reserved field, and the pre-serialized
attribute blob.  The command's enumeration family (the type parameter `C`,
constrained `From<u8> + Into<u8>`) is passed to the codec functions as a
`Family` of width 1. -/
structure Genlmsghdr where
  cmd : EnumVal
  version : Nat
  reserved : Nat
  attrs : List Nat
deriving DecidableEq, Repr

/-- `Genlmsghdr::new`: serialize every attribute into a scratch write buffer
(the capacity hint summed from padded sizes only avoids reallocation and does
not affect the bytes produced), store the concatenation as the blob, zero
the reserved field. -/
def Genlmsghdr.new (cmd : EnumVal) (version : Nat) (attrs : List Nlattr) :
    Genlmsghdr :=
  { cmd := cmd
    version := version
    reserved := 0
    attrs := attrs.foldl (fun buf a => nlattrSerialize a buf) [] }

/-- `Genlmsghdr::get_attr_handle`: a traversal handle over the stored blob;
no parsing happens here. -/
def Genlmsghdr.getAttrHandle (g : Genlmsghdr) : AttrHandle :=
  .Bin g.attrs

/-- `Genlmsghdr`'s `Nl::serialize`: `cmd`, `version`, `reserved`, `attrs`,
in that order, through the same write cursor. -/
def genlSerialize (famC : Family) (g : Genlmsghdr) (buf : List Nat) :
    List Nat :=
  serVecU8 g.attrs
    (serUInt 2 g.reserved
      (serUInt 1 g.version
        (enumSerialize famC g.cmd buf)))

/-- `Genlmsghdr`'s `Nl::deserialize`: read `cmd`, `version`, `reserved`,
`attrs` in order (each `?` propagating the decode error); the blob is stored
raw, unparsed. -/
def genlDeserialize (famC : Family) (buf : List Nat) :
    Except DeError (Genlmsghdr × List Nat) :=
  match enumDeserialize famC buf with
  | .error e => .error e
  | .ok (cmd, r1) =>
    match desUInt 1 r1 with
    | .error e => .error e
    | .ok (version, r2) =>
      match desUInt 2 r2 with
      | .error e => .error e
      | .ok (reserved, r3) =>
        match desVecU8 r3 with
        | .error e => .error e
        | .ok (attrs, r4) =>
          .ok ({ cmd := cmd, version := version, reserved := reserved,
                 attrs := attrs }, r4)

/-- The spec's phrase for the blob field of `Genlmsghdr::serialize`
("length-prefixed as a byte sequence"), taken at its word: a native-endian
16-bit byte count (the library's length width) followed by the bytes.  Used
only to compare the spec's wording with the layout the code produces. -/
def genlSerializeSpecPrefixed (famC : Family) (g : Genlmsghdr)
    (buf : List Nat) : List Nat :=
  serVecU8 g.attrs
    (serUInt 2 g.attrs.length
      (serUInt 2 g.reserved
        (serUInt 1 g.version
          (enumSerialize famC g.cmd buf))))

/-- A concrete generic netlink header used as a sample input: command
`CtrlCmd::Getops`, version 2, zeroed reserved field, a three-byte blob. -/
def gExample : Genlmsghdr := ⟨ctrlCmdGetops, 2, 0, [1, 2, 3]⟩

/-! ## The error taxonomy (`src/err.rs`)

`try_err_compat!` generates, for each listed lower-level error type, a `From`
impl building the target error from the source error's `description()`
string.  The lower-level `std` error types are external; each is embedded as
the description string it reports. -/

/-- An `std::io::Error`, by its `description()` text. -/
structure IoError where
  description : String
deriving DecidableEq, Repr

/-- A `std::str::Utf8Error`, by its `description()` text. -/
structure Utf8Error where
  description : String
deriving DecidableEq, Repr

/-- A `std::string::FromUtf8Error`, by its `description()` text. -/
structure FromUtf8Error where
  description : String
deriving DecidableEq, Repr

/-- A `std::ffi::FromBytesWithNulError`, by its `description()` text. -/
structure FromBytesWithNulError where
  description : String
deriving DecidableEq, Repr

/-- `NlError`: a wrapped message or a missing acknowledgment. -/
inductive NlError where
  | msg : String → NlError
  | noAck : NlError
deriving DecidableEq, Repr

/-- `NlError::new`: wrap a string as the `Msg` variant. -/
def NlError.new (s : String) : NlError := .msg s

/-- `Error::description` for `NlError`. -/
def NlError.description : NlError → String
  | .msg s => s
  | .noAck => "No ack received"

/-- `Error::description` for `SerError`. -/
def SerError.description (e : SerError) : String := e.msg

/-- `Error::description` for `DeError`. -/
def DeError.description (e : DeError) : String := e.msg

/-- `SerError::new` (generic over `ToString`; strings stringify to
themselves). -/
def SerError.new (s : String) : SerError := ⟨s⟩

/-- `DeError::new`. -/
def DeError.new (s : String) : DeError := ⟨s⟩

/-- `try_err_compat!(NlError, io::Error, ...)`: the `From<io::Error>` impl. -/
def NlError.fromIoError (e : IoError) : NlError := NlError.new e.description

/-- `try_err_compat!(NlError, ..., SerError, ...)`: the `From<SerError>`
impl. -/
def NlError.fromSerError (e : SerError) : NlError :=
  NlError.new e.description

/-- `try_err_compat!(NlError, ..., DeError)`: the `From<DeError>` impl. -/
def NlError.fromDeError (e : DeError) : NlError := NlError.new e.description

/-- `try_err_compat!(SerError, io::Error)`: the `From<io::Error>` impl. -/
def SerError.fromIoError (e : IoError) : SerError :=
  SerError.new e.description

/-- `try_err_compat!(DeError, io::Error, ...)`: the `From<io::Error>`
impl. -/
def DeError.fromIoError (e : IoError) : DeError := DeError.new e.description

/-- `try_err_compat!(DeError, ..., str::Utf8Error, ...)`: the
`From<str::Utf8Error>` impl. -/
def DeError.fromUtf8Error (e : Utf8Error) : DeError :=
  DeError.new e.description

/-- `try_err_compat!(DeError, ..., string::FromUtf8Error, ...)`: the
`From<string::FromUtf8Error>` impl. -/
def DeError.fromFromUtf8Error (e : FromUtf8Error) : DeError :=
  DeError.new e.description

/-- `try_err_compat!(DeError, ..., std::ffi::FromBytesWithNulError)`: the
`From<FromBytesWithNulError>` impl. -/
def DeError.fromFromBytesWithNulError (e : FromBytesWithNulError) : DeError :=
  DeError.new e.description

/-! ## General lemmas about the codec primitives -/

theorem bytesLE_length (w n : Nat) : (bytesLE w n).length = w := by
  induction w generalizing n with
  | zero => rfl
  | succ w ih => simp [bytesLE, ih]

theorem natFromBytesLE_bytesLE (w n : Nat) :
    natFromBytesLE (bytesLE w n) = n % 256 ^ w := by
  induction w generalizing n with
  | zero => simp [bytesLE, natFromBytesLE, Nat.mod_one]
  | succ w ih =>
    have h : (256 : Nat) ^ (w + 1) = 256 * 256 ^ w := by ring
    rw [h, Nat.mod_mul]
    simp [bytesLE, natFromBytesLE] at ih ⊢
    rw [ih]

theorem desUInt_bytesLE (w n : Nat) (rest : List Nat) :
    desUInt w (bytesLE w n ++ rest) = .ok (n % 256 ^ w, rest) := by
  have hlen : (bytesLE w n).length = w := bytesLE_length w n
  simp [desUInt, hlen]
  exact natFromBytesLE_bytesLE w n

theorem getD_of_findVariant {vals : List Nat} {v i : Nat}
    (h : findVariant vals v = some i) : vals.getD i 0 = v := by
  induction vals generalizing i with
  | nil => simp [findVariant] at h
  | cons x xs ih =>
    by_cases hx : x = v
    · simp [findVariant, hx] at h
      subst h
      simpa using hx
    · simp [findVariant, hx] at h
      obtain ⟨j, hj, rfl⟩ := h
      simpa using ih hj

theorem findVariant_lt_length {vals : List Nat} {v i : Nat}
    (h : findVariant vals v = some i) : i < vals.length := by
  induction vals generalizing i with
  | nil => simp [findVariant] at h
  | cons x xs ih =>
    by_cases hx : x = v
    · simp [findVariant, hx] at h
      subst h
      simp
    · simp [findVariant, hx] at h
      obtain ⟨j, hj, rfl⟩ := h
      simpa using ih hj

theorem findVariant_eq_none_of_not_mem {vals : List Nat} {v : Nat}
    (h : v ∉ vals) : findVariant vals v = none := by
  induction vals with
  | nil => rfl
  | cons x xs ih =>
    simp at h
    have hx : ¬ x = v := fun hxv => h.1 hxv.symm
    simp [findVariant, hx, ih h.2]

theorem findVariant_isSome_of_mem {vals : List Nat} {v : Nat}
    (h : v ∈ vals) : (findVariant vals v).isSome := by
  induction vals with
  | nil => simp at h
  | cons x xs ih =>
    by_cases hx : x = v
    · simp [findVariant, hx]
    · have hxs : v ∈ xs := by
        rcases List.mem_cons.mp h with h1 | h1
        · exact absurd h1.symm hx
        · exact h1
      simp [findVariant, hx]
      have := ih hxs
      cases hf : findVariant xs v with
      | none => rw [hf] at this; simp at this
      | some j => simp [hf]

theorem toInt_fromInt (F : Family) (v : Nat) : toInt F (fromInt F v) = v := by
  unfold fromInt
  cases h : findVariant F.vals v with
  | none => rfl
  | some i => simpa [toInt] using getD_of_findVariant h

theorem fromInt_of_not_mem (F : Family) (v : Nat) (h : v ∉ F.vals) :
    fromInt F v = .unrecognizedVariant v := by
  unfold fromInt
  rw [findVariant_eq_none_of_not_mem h]

theorem enumDeserialize_bytesLE (F : Family) (v : Nat) (rest : List Nat)
    (h : v < 256 ^ F.width) :
    enumDeserialize F (bytesLE F.width v ++ rest) = .ok (fromInt F v, rest) := by
  unfold enumDeserialize
  rw [desUInt_bytesLE, Nat.mod_eq_of_lt h]

/-! ## Lemmas about `alignto` -/

theorem usize_mask_eq : (2 ^ 64 - 4 : Nat) = (2 ^ 62 - 1) <<< 2 := by
  rw [Nat.shiftLeft_eq]
  norm_num

/-- Masking with `!3 : usize` zeroes the two low bits and the bits from 64
up. -/
theorem land_usize_mask (m : Nat) :
    m &&& (2 ^ 64 - 4) = 4 * (m / 4 % 2 ^ 62) := by
  rw [usize_mask_eq]
  apply Nat.eq_of_testBit_eq
  intro i
  rw [Nat.testBit_land, Nat.testBit_shiftLeft]
  have h4 : (4 : Nat) * (m / 4 % 2 ^ 62) = (m / 4 % 2 ^ 62) <<< 2 := by
    rw [Nat.shiftLeft_eq]; ring
  rw [h4, Nat.testBit_shiftLeft, Nat.testBit_mod_two_pow,
    Nat.testBit_two_pow_sub_one]
  have hm : m / 4 = m >>> 2 := by
    rw [Nat.shiftRight_eq_div_pow]
  rw [hm, Nat.testBit_shiftRight]
  by_cases h2 : 2 ≤ i
  · have hi : 2 + (i - 2) = i := by omega
    rw [hi]
    simp [Bool.and_comm, Bool.and_left_comm, Bool.and_assoc]
  · simp [h2]

theorem alignto_eq (n : Nat) :
    alignto n = 4 * ((n + 3) % 2 ^ 64 / 4 % 2 ^ 62) := by
  show (n + 4 - 1) % 2 ^ 64 &&& (2 ^ 64 - 4) = _
  rw [land_usize_mask]
  norm_num

/-- In the overflow-free range, `alignto` rounds up to the next multiple
of 4. -/
theorem alignto_of_no_overflow (n : Nat) (h : n ≤ 2 ^ 64 - 4) :
    alignto n = 4 * ((n + 3) / 4) := by
  rw [alignto_eq]
  have h1 : (n + 3) % 2 ^ 64 = n + 3 := Nat.mod_eq_of_lt (by omega)
  rw [h1]
  have h2 : (n + 3) / 4 < 2 ^ 62 := by omega
  rw [Nat.mod_eq_of_lt h2]

/-- When `n + 3` overflows usize (the three largest usize values), the
wrapped sum is below 4 and the result is 0. -/
theorem alignto_of_overflow (n : Nat) (hlo : 2 ^ 64 - 4 < n)
    (hhi : n < 2 ^ 64) : alignto n = 0 := by
  rw [alignto_eq]
  have h1 : (n + 3) % 2 ^ 64 = n + 3 - 2 ^ 64 := by
    rw [Nat.mod_eq_sub_mod (by omega), Nat.mod_eq_of_lt (by omega)]
  rw [h1]
  have h2 : (n + 3 - 2 ^ 64) / 4 = 0 := by omega
  rw [h2]
  simp

/-! ## Serializers only append -/

theorem nlattrSerialize_append (a : Nlattr) (buf : List Nat) :
    nlattrSerialize a buf = buf ++ nlattrSerialize a [] := by
  simp [nlattrSerialize, serVecU8, serUInt, enumSerialize]

/-- The serialize-every-attribute loop of `Genlmsghdr::new` produces the
in-order concatenation of the individual serializations. -/
theorem foldl_nlattrSerialize (attrs : List Nlattr) (buf : List Nat) :
    attrs.foldl (fun b a => nlattrSerialize a b) buf =
      buf ++ (attrs.map (fun a => nlattrSerialize a [])).flatten := by
  induction attrs generalizing buf with
  | nil => simp
  | cons a as ih =>
    simp only [List.foldl_cons, List.map_cons, List.flatten_cons]
    rw [ih, nlattrSerialize_append]
    simp [List.append_assoc]

/-! ## Claim C1 -/

/-- C1, counterexample: serializing `Arphrd::Atm` (declared with the backing
value 8 of `ARPHRD_APPLETLK`) and deserializing the bytes yields
`Arphrd::Appletlk`, a different enumeration value, so the serialize-then-
deserialize round trip is not the identity on every enumeration value of the
`Arphrd` family. -/
theorem arphrd_atm_roundtrip_breaks :
    enumDeserialize arphrdFam (enumSerialize arphrdFam arphrdAtm []) =
      .ok (arphrdAppletlk, []) ∧
    arphrdAppletlk ≠ arphrdAtm :=
  ⟨rfl, by decide⟩

/-- C1, amended: for every enumeration family and every enumeration value
representable in the family's backing width, serializing and then
deserializing yields the first variant declared with the value's backing
integer; the result always has the same backing integer as the original, and
equals the original whenever the original is the integer conversion's
canonical representative of its backing integer — which excludes exactly the
values whose backing integer is shared with an earlier declaration, such as
`Arphrd::Atm`. -/
theorem enum_roundtrip_amended (F : Family) (e : EnumVal)
    (h : toInt F e < 256 ^ F.width) :
    enumDeserialize F (enumSerialize F e []) =
      .ok (fromInt F (toInt F e), []) ∧
    toInt F (fromInt F (toInt F e)) = toInt F e ∧
    (fromInt F (toInt F e) = e →
      enumDeserialize F (enumSerialize F e []) = .ok (e, [])) := by
  have hd : enumDeserialize F (enumSerialize F e []) =
      .ok (fromInt F (toInt F e), []) := by
    have hb : enumSerialize F e [] = bytesLE F.width (toInt F e) ++ [] := by
      simp [enumSerialize, serUInt]
    rw [hb, enumDeserialize_bytesLE F (toInt F e) [] h]
  exact ⟨hd, toInt_fromInt F (toInt F e), fun hc => by rw [hd, hc]⟩

/-- C1, witness: the amended round trip at `Arphrd::Ether`. -/
theorem enum_roundtrip_amended_witness :
    toInt arphrdFam (EnumVal.known 1) < 256 ^ arphrdFam.width ∧
    (enumDeserialize arphrdFam
        (enumSerialize arphrdFam (EnumVal.known 1) []) =
      .ok (fromInt arphrdFam (toInt arphrdFam (EnumVal.known 1)), []) ∧
    toInt arphrdFam (fromInt arphrdFam (toInt arphrdFam (EnumVal.known 1))) =
      toInt arphrdFam (EnumVal.known 1) ∧
    (fromInt arphrdFam (toInt arphrdFam (EnumVal.known 1)) =
        EnumVal.known 1 →
      enumDeserialize arphrdFam
          (enumSerialize arphrdFam (EnumVal.known 1) []) =
        .ok (EnumVal.known 1, []))) :=
  ⟨by decide, enum_roundtrip_amended arphrdFam (EnumVal.known 1) (by decide)⟩

/-! ## Claim C2 -/

/-- C2: encoding a generic netlink header with command `CtrlCmd::Getops`,
version 2, and one `CtrlAttr::FamilyId` attribute carrying the payload
`[0, 1, 2, 3, 4, 5, 0, 0]` produces exactly the command byte 6, the version
byte 2, two zero reserved bytes, the 16-bit native-endian attribute length
12, the 16-bit type code 1, and the 8 payload bytes, with no extra padding
(the byte vector of `test_serialize` in `src/genl.rs`). -/
theorem genl_serialize_getops_example :
    genlSerialize ctrlCmdFam
      (Genlmsghdr.new ctrlCmdGetops 2
        [Nlattr.newBinaryPayload ctrlAttrFam ctrlAttrFamilyId
          [0, 1, 2, 3, 4, 5, 0, 0]]) [] =
    [6, 2, 0, 0, 12, 0, 1, 0, 0, 1, 2, 3, 4, 5, 0, 0] := by decide

/-! ## Claim C3 -/

/-- C3, counterexample: the attribute blob of `Genlmsghdr` is serialized as
its raw bytes only — a one-byte blob `[0xAB]` contributes exactly the byte
`0xAB` after the fixed header fields, whereas the length-prefixed encoding
the claim describes would insert the blob's byte count first. -/
theorem genl_blob_not_length_prefixed :
    genlSerialize ctrlCmdFam ⟨ctrlCmdGetops, 2, 0, [0xAB]⟩ [] =
      [6, 2, 0, 0, 0xAB] ∧
    genlSerializeSpecPrefixed ctrlCmdFam ⟨ctrlCmdGetops, 2, 0, [0xAB]⟩ [] =
      [6, 2, 0, 0, 1, 0, 0xAB] ∧
    genlSerialize ctrlCmdFam ⟨ctrlCmdGetops, 2, 0, [0xAB]⟩ [] ≠
      genlSerializeSpecPrefixed ctrlCmdFam ⟨ctrlCmdGetops, 2, 0, [0xAB]⟩ [] :=
  ⟨by decide, by decide, by decide⟩

/-- C3, amended: serialization writes `cmd`, `version`, `reserved`, then the
attribute blob as raw bytes with no length prefix; deserialization reads the
same order, consuming the remainder of the buffer as the raw unparsed blob
(so serialize-then-deserialize is the identity on well-formed headers), and
structured attributes are produced only by requesting a traversal handle. -/
theorem genl_serialize_order_roundtrip (famC : Family) (g : Genlmsghdr)
    (hw : famC.width = 1) (hc : fromInt famC (toInt famC g.cmd) = g.cmd)
    (hcb : toInt famC g.cmd < 256) (hv : g.version < 256)
    (hr : g.reserved < 2 ^ 16) :
    genlSerialize famC g [] =
      bytesLE 1 (toInt famC g.cmd) ++ bytesLE 1 g.version ++
        bytesLE 2 g.reserved ++ g.attrs ∧
    genlDeserialize famC (genlSerialize famC g []) = .ok (g, []) ∧
    g.getAttrHandle = .Bin g.attrs := by
  have hser : genlSerialize famC g [] =
      bytesLE 1 (toInt famC g.cmd) ++ (bytesLE 1 g.version ++
        (bytesLE 2 g.reserved ++ g.attrs)) := by
    simp [genlSerialize, serVecU8, serUInt, enumSerialize, hw]
  refine ⟨by rw [hser]; simp [List.append_assoc], ?_, rfl⟩
  have hd1 : enumDeserialize famC (bytesLE 1 (toInt famC g.cmd) ++
      (bytesLE 1 g.version ++ (bytesLE 2 g.reserved ++ g.attrs))) =
      .ok (g.cmd, bytesLE 1 g.version ++ (bytesLE 2 g.reserved ++ g.attrs)) := by
    have h := enumDeserialize_bytesLE famC (toInt famC g.cmd)
      (bytesLE 1 g.version ++ (bytesLE 2 g.reserved ++ g.attrs))
      (by rw [hw]; simpa using hcb)
    rw [hw, hc] at h
    exact h
  have hd2 : desUInt 1 (bytesLE 1 g.version ++
      (bytesLE 2 g.reserved ++ g.attrs)) =
      .ok (g.version, bytesLE 2 g.reserved ++ g.attrs) := by
    rw [desUInt_bytesLE, Nat.mod_eq_of_lt (by simpa using hv)]
  have hd3 : desUInt 2 (bytesLE 2 g.reserved ++ g.attrs) =
      .ok (g.reserved, g.attrs) := by
    rw [desUInt_bytesLE, Nat.mod_eq_of_lt (by norm_num at hr ⊢; exact hr)]
  rw [hser]
  simp [genlDeserialize, hd1, hd2, hd3, desVecU8]

/-- C3, witness: the amended statement at the sample header `gExample`. -/
theorem genl_serialize_order_roundtrip_witness :
    (ctrlCmdFam.width = 1 ∧
      fromInt ctrlCmdFam (toInt ctrlCmdFam gExample.cmd) = gExample.cmd ∧
      toInt ctrlCmdFam gExample.cmd < 256 ∧ gExample.version < 256 ∧
      gExample.reserved < 2 ^ 16) ∧
    (genlSerialize ctrlCmdFam gExample [] =
        bytesLE 1 (toInt ctrlCmdFam gExample.cmd) ++
          bytesLE 1 gExample.version ++ bytesLE 2 gExample.reserved ++
          gExample.attrs ∧
      genlDeserialize ctrlCmdFam (genlSerialize ctrlCmdFam gExample []) =
        .ok (gExample, []) ∧
      gExample.getAttrHandle = .Bin gExample.attrs) :=
  ⟨⟨rfl, by decide, by decide, by decide, by decide⟩,
    genl_serialize_order_roundtrip ctrlCmdFam gExample rfl (by decide)
      (by decide) (by decide) (by decide)⟩

/-! ## Claim C4 -/

/-- C4, counterexample: at `usize::MAX` the addition `len + 3` inside
`alignto` wraps, the result is 0, and `alignto` decreases its argument. -/
theorem alignto_wraps_at_usize_max :
    alignto (2 ^ 64 - 1) = 0 ∧
    ¬ (2 ^ 64 - 1 ≤ alignto (2 ^ 64 - 1)) :=
  ⟨by decide, by decide⟩

/-- C4, amended: for every usize `n`, `alignto` is idempotent and returns
every multiple of 4 unchanged; it never decreases `n` provided `n + 3` does
not overflow (`n ≤ 2 ^ 64 - 4`) — at the three largest usize values the
wrapped sum makes the result 0. -/
theorem alignto_props_amended (n : Nat) (h : n < 2 ^ 64) :
    alignto (alignto n) = alignto n ∧
    (n ≤ 2 ^ 64 - 4 → n ≤ alignto n) ∧
    (n % 4 = 0 → alignto n = n) := by
  refine ⟨?_, ?_, ?_⟩
  · by_cases hb : n ≤ 2 ^ 64 - 4
    · rw [alignto_of_no_overflow n hb]
      have h2 : 4 * ((n + 3) / 4) ≤ 2 ^ 64 - 4 := by omega
      rw [alignto_of_no_overflow _ h2]
      omega
    · rw [alignto_of_overflow n (by omega) h]
      decide
  · intro hb
    rw [alignto_of_no_overflow n hb]
    omega
  · intro h4
    have hb : n ≤ 2 ^ 64 - 4 := by omega
    rw [alignto_of_no_overflow n hb]
    omega

/-- C4, witness: the amended statement at `n = 8`. -/
theorem alignto_props_amended_witness :
    8 < 2 ^ 64 ∧
    (alignto (alignto 8) = alignto 8 ∧
      (8 ≤ 2 ^ 64 - 4 → 8 ≤ alignto 8) ∧
      (8 % 4 = 0 → alignto 8 = 8)) :=
  ⟨by decide, alignto_props_amended 8 (by decide)⟩

/-! ## Claim C5 -/

/-- C5: for every enumeration family and every backing integer,
`integer -> enumeration -> integer` is the identity, and the
integer-to-enumeration conversion maps the integer to exactly one value:
the first declared variant carrying the integer when one exists, otherwise
the `UnrecognizedVariant` fallback carrying the raw integer. -/
theorem enum_int_conversion_total_lossless (F : Family) (v : Nat) :
    toInt F (fromInt F v) = v ∧
    ((∃ i, i < F.vals.length ∧ F.vals.getD i 0 = v ∧
        fromInt F v = .known i) ∨
      (v ∉ F.vals ∧ fromInt F v = .unrecognizedVariant v)) := by
  refine ⟨toInt_fromInt F v, ?_⟩
  cases h : findVariant F.vals v with
  | some i =>
    left
    exact ⟨i, findVariant_lt_length h, getD_of_findVariant h,
      by unfold fromInt; rw [h]⟩
  | none =>
    right
    refine ⟨?_, by unfold fromInt; rw [h]⟩
    intro hm
    have hs := findVariant_isSome_of_mem hm
    rw [h] at hs
    simp at hs

/-! ## Claim C6 -/

/-- C6: `Genlmsghdr::new` stores as the attribute blob exactly the in-order
concatenation of the serializations of the given attributes, keeps `cmd` and
`version` as passed, and zeroes the reserved field (serialization into the
growable scratch buffer always succeeds). -/
theorem genlmsghdr_new_concat (cmd : EnumVal) (version : Nat)
    (attrs : List Nlattr) :
    (Genlmsghdr.new cmd version attrs).attrs =
      (attrs.map (fun a => nlattrSerialize a [])).flatten ∧
    (Genlmsghdr.new cmd version attrs).cmd = cmd ∧
    (Genlmsghdr.new cmd version attrs).version = version ∧
    (Genlmsghdr.new cmd version attrs).reserved = 0 := by
  refine ⟨?_, rfl, rfl, rfl⟩
  show attrs.foldl (fun b a => nlattrSerialize a b) [] = _
  rw [foldl_nlattrSerialize]
  simp

/-! ## Claim C7 -/

/-- C7: deserializing an enumeration value succeeds on every integer
representable in the backing width — an integer with no named variant decodes
to the `UnrecognizedVariant` fallback carrying it — and fails with a decode
error exactly when the buffer holds fewer bytes than the backing width. -/
theorem enum_deserialize_total_on_values (F : Family) (v : Nat)
    (rest bytes : List Nat) (hv : v < 256 ^ F.width) :
    enumDeserialize F (bytesLE F.width v ++ rest) =
      .ok (fromInt F v, rest) ∧
    (v ∉ F.vals →
      enumDeserialize F (bytesLE F.width v ++ rest) =
        .ok (.unrecognizedVariant v, rest)) ∧
    (bytes.length < F.width →
      enumDeserialize F bytes = .error (DeError.new "buffer exhausted")) := by
  refine ⟨enumDeserialize_bytesLE F v rest hv, ?_, ?_⟩
  · intro hm
    rw [enumDeserialize_bytesLE F v rest hv, fromInt_of_not_mem F v hm]
  · intro hl
    unfold enumDeserialize desUInt
    rw [if_neg (by omega)]
    rfl

/-- C7, witness: `Arphrd` at the variant-free integer 1000, and a one-byte
buffer too short for the two-byte backing width. -/
theorem enum_deserialize_total_on_values_witness :
    1000 < 256 ^ arphrdFam.width ∧
    (enumDeserialize arphrdFam (bytesLE arphrdFam.width 1000 ++ []) =
        .ok (fromInt arphrdFam 1000, []) ∧
      (1000 ∉ arphrdFam.vals →
        enumDeserialize arphrdFam (bytesLE arphrdFam.width 1000 ++ []) =
          .ok (.unrecognizedVariant 1000, [])) ∧
      ([7].length < arphrdFam.width →
        enumDeserialize arphrdFam [7] =
          .error (DeError.new "buffer exhausted"))) :=
  ⟨by decide,
    enum_deserialize_total_on_values arphrdFam 1000 [] [7] (by decide)⟩

/-! ## Claim C8 -/

/-- C8: every generated conversion from an underlying error (I/O, UTF-8
decoding, or a lower-level codec error) into `SerError`, `DeError`, or
`NlError` is total (they are functions) and produces an error that retains
only the original error's description text. -/
theorem err_conversions_preserve_description (io : IoError) (se : SerError)
    (de : DeError) (ue : Utf8Error) (fe : FromUtf8Error)
    (be : FromBytesWithNulError) :
    (NlError.fromIoError io).description = io.description ∧
    NlError.fromIoError io = .msg io.description ∧
    (NlError.fromSerError se).description = se.description ∧
    (NlError.fromDeError de).description = de.description ∧
    (SerError.fromIoError io).description = io.description ∧
    (DeError.fromIoError io).description = io.description ∧
    (DeError.fromUtf8Error ue).description = ue.description ∧
    (DeError.fromFromUtf8Error fe).description = fe.description ∧
    (DeError.fromFromBytesWithNulError be).description = be.description :=
  ⟨rfl, rfl, rfl, rfl, rfl, rfl, rfl, rfl, rfl⟩

/-! ## Claim C9 -/

/-- C9: `Genlmsghdr::deserialize` accepts any 16-bit value in the reserved
position and stores it verbatim: every byte sequence of at least four bytes
(over a width-1 command family) decodes, the decoded header's reserved field
is the native-endian value of bytes 2 and 3, and re-serializing the decoded
header reproduces the input bytes exactly. -/
theorem genl_deserialize_reserved_verbatim (famC : Family)
    (b0 b1 b2 b3 : Nat) (rest : List Nat) (hw : famC.width = 1)
    (h0 : b0 < 256) (h1 : b1 < 256) (h2 : b2 < 256) (h3 : b3 < 256) :
    ∃ g : Genlmsghdr,
      genlDeserialize famC (b0 :: b1 :: b2 :: b3 :: rest) = .ok (g, []) ∧
      g.reserved = b2 + 256 * b3 ∧
      genlSerialize famC g [] = b0 :: b1 :: b2 :: b3 :: rest := by
  have e0 : bytesLE 1 b0 = [b0] := by
    simp [bytesLE, Nat.mod_eq_of_lt h0]
  have e1 : bytesLE 1 b1 = [b1] := by
    simp [bytesLE, Nat.mod_eq_of_lt h1]
  have e23 : bytesLE 2 (b2 + 256 * b3) = [b2, b3] := by
    have hm2 : (b2 + 256 * b3) % 256 = b2 := by omega
    have hq2 : (b2 + 256 * b3) / 256 = b3 := by omega
    simp [bytesLE, hm2, hq2, Nat.mod_eq_of_lt h3]
  refine ⟨⟨fromInt famC b0, b1, b2 + 256 * b3, rest⟩, ?_, rfl, ?_⟩
  · have hbuf : b0 :: b1 :: b2 :: b3 :: rest =
        bytesLE 1 b0 ++
          (bytesLE 1 b1 ++ (bytesLE 2 (b2 + 256 * b3) ++ rest)) := by
      rw [e0, e1, e23]
      rfl
    have hc1 := enumDeserialize_bytesLE famC b0
      (bytesLE 1 b1 ++ (bytesLE 2 (b2 + 256 * b3) ++ rest))
      (by rw [hw]; simpa using h0)
    rw [hw] at hc1
    have hc2 : desUInt 1
        (bytesLE 1 b1 ++ (bytesLE 2 (b2 + 256 * b3) ++ rest)) =
        .ok (b1, bytesLE 2 (b2 + 256 * b3) ++ rest) := by
      rw [desUInt_bytesLE, Nat.mod_eq_of_lt (by simpa using h1)]
    have hc3 : desUInt 2 (bytesLE 2 (b2 + 256 * b3) ++ rest) =
        .ok (b2 + 256 * b3, rest) := by
      rw [desUInt_bytesLE, Nat.mod_eq_of_lt (by norm_num; omega)]
    rw [hbuf]
    simp [genlDeserialize, hc1, hc2, hc3, desVecU8]
  · simp [genlSerialize, serVecU8, serUInt, enumSerialize, hw,
      toInt_fromInt, e0, e1, e23]

/-- C9, witness: a five-byte input whose reserved bytes `0xAB 0xCD` are
nonzero. -/
theorem genl_deserialize_reserved_verbatim_witness :
    (ctrlCmdFam.width = 1 ∧ 6 < 256 ∧ 2 < 256 ∧ 171 < 256 ∧ 205 < 256) ∧
    (∃ g : Genlmsghdr,
      genlDeserialize ctrlCmdFam (6 :: 2 :: 171 :: 205 :: [9]) =
        .ok (g, []) ∧
      g.reserved = 171 + 256 * 205 ∧
      genlSerialize ctrlCmdFam g [] = 6 :: 2 :: 171 :: 205 :: [9]) :=
  ⟨⟨rfl, by decide, by decide, by decide, by decide⟩,
    genl_deserialize_reserved_verbatim ctrlCmdFam 6 2 171 205 [9] rfl
      (by decide) (by decide) (by decide) (by decide)⟩

/-! ## Claim C10 -/

/-- C10: in any flag family, the bitwise OR of two known flag values that is
not itself a listed value converts to `UnrecognizedVariant` carrying that
integer, never to a named flag variant. -/
theorem flags_or_unrecognized (F : Family) (a b : Nat) (_ha : a ∈ F.vals)
    (_hb : b ∈ F.vals) (hn : (a ||| b) ∉ F.vals) :
    fromInt F (a ||| b) = .unrecognizedVariant (a ||| b) :=
  fromInt_of_not_mem F (a ||| b) hn

/-- C10, witness: `NlmF::Request | NlmF::Ack` (1 | 4 = 5) is no listed flag
value and converts to `UnrecognizedVariant 5`. -/
theorem flags_or_unrecognized_witness :
    (1 ∈ nlmFFam.vals ∧ 4 ∈ nlmFFam.vals ∧ (1 ||| 4) ∉ nlmFFam.vals) ∧
    fromInt nlmFFam (1 ||| 4) = .unrecognizedVariant (1 ||| 4) :=
  ⟨⟨by decide, by decide, by decide⟩,
    flags_or_unrecognized nlmFFam 1 4 (by decide) (by decide) (by decide)⟩

end Neli
